import Mathlib

/-!
# Verification of the SVG path interpolation engine

Shallow embedding of `src/utils/interpolate-path.ts` (class `PathInterpolator`
plus the free functions `interpolatePath` / `animatePath`).  JavaScript numbers
are modelled by `ℚ`; fallible code (`throw`) is modelled by `Except String`;
in-place array mutation is modelled by returning fresh lists.  Where the
source would write `NaN` into an array (odd-length coordinate runs in the
pair-offset loop) the embedding cannot represent that value in `ℚ`; the
theorems below restrict themselves to the NaN-free inputs, and each such spot
is flagged with a comment.
-/

namespace PathInterp

/-- The ten SVG command kinds, `type PathCommand` in the source. -/
inductive PathCommand
  | M | L | H | V | C | S | Q | T | A | Z
deriving DecidableEq

/-- Render a command kind as its upper-case letter (used by `commandsToPath`). -/
def pathCommandString : PathCommand → String
  | .M => "M" | .L => "L" | .H => "H" | .V => "V" | .C => "C"
  | .S => "S" | .Q => "Q" | .T => "T" | .A => "A" | .Z => "Z"

/-- ASCII whitespace recognised by the JavaScript regex class `\s`
(the source never feeds non-ASCII whitespace; the Unicode spaces that JS
additionally accepts are outside the path alphabet used here). -/
def isWS (c : Char) : Bool :=
  c = ' ' || c = '\t' || c = '\n' || c = '\r' || c = Char.ofNat 11 || c = Char.ofNat 12

/-- Separator class `[\s,]` used by `parseCoordinates`'s `split`. -/
def isSep (c : Char) : Bool := isWS c || c = ','

/-- The command letter table: `M m L l H h V v C c S s Q q T t A a Z z`.
`some` exactly on command letters; the upper-case kind is returned
(`command.toUpperCase()` in `parsePath`). -/
def commandOfChar (c : Char) : Option PathCommand :=
  if c = 'M' ∨ c = 'm' then some .M
  else if c = 'L' ∨ c = 'l' then some .L
  else if c = 'H' ∨ c = 'h' then some .H
  else if c = 'V' ∨ c = 'v' then some .V
  else if c = 'C' ∨ c = 'c' then some .C
  else if c = 'S' ∨ c = 's' then some .S
  else if c = 'Q' ∨ c = 'q' then some .Q
  else if c = 'T' ∨ c = 't' then some .T
  else if c = 'A' ∨ c = 'a' then some .A
  else if c = 'Z' ∨ c = 'z' then some .Z
  else none

/-- Character class of `validatePath`'s regex
`/^[MmLlHhVvCcSsQqTtAaZz\d\s.,+-]*$/`. -/
def validChar (c : Char) : Bool :=
  (commandOfChar c).isSome || c.isDigit || isWS c ||
    c = '.' || c = ',' || c = '+' || c = '-'

/-- JavaScript `String.prototype.trim` (ASCII whitespace scope). -/
def jsTrim (cs : List Char) : List Char :=
  ((cs.dropWhile isWS).reverse.dropWhile isWS).reverse

/-- One parsed command, `interface PathCommandObject`. -/
structure PathCommandObject where
  command : PathCommand
  isRelative : Bool
  coords : List ℚ
  original : String
deriving DecidableEq

/-- `interface ParsedPath`. -/
structure ParsedPath where
  commands : List PathCommandObject
  totalLength : ℕ
deriving DecidableEq

/-! ## The command scanner

The source matches `/([MmLlHhVvCcSsQqTtAaZz])((?:\s*-?\d*\.?\d+(?:[eE][+-]?\d+)?\s*,?\s*)*)/g`
repeatedly with `exec`.  The embedding below is that regex engine's behaviour
spelt out: find the next command letter, then greedily take coordinate blocks
`\s* -? \d* \.? \d+ ([eE][+-]?\d+)? \s* ,? \s*`; text between matches is
skipped.  The deterministic recursions reproduce the (finite) backtracking of
`\d*\.?\d+` and of the optional exponent group. -/

/-- The numeric core `\d*\.?\d+` (with backtracking: `"5."` matches `"5"`,
leaving the dot). Returns the matched characters and the rest. -/
def parseCore (cs : List Char) : Option (List Char × List Char) :=
  let d1 := cs.takeWhile Char.isDigit
  let r1 := cs.dropWhile Char.isDigit
  match r1 with
  | '.' :: r2 =>
    let d2 := r2.takeWhile Char.isDigit
    let r3 := r2.dropWhile Char.isDigit
    if d2 = [] then (if d1 = [] then none else some (d1, r1))
    else some (d1 ++ '.' :: d2, r3)
  | _ => if d1 = [] then none else some (d1, r1)

/-- The optional exponent `(?:[eE][+-]?\d+)?`; consumes nothing when the
full exponent is not present (fewer than two remaining characters can never
hold a full exponent). -/
def parseExpPart : List Char → List Char × List Char
  | c :: s :: rest2 =>
    if c = 'e' ∨ c = 'E' then
      if s = '+' ∨ s = '-' then
        let d := rest2.takeWhile Char.isDigit
        if d = [] then ([], c :: s :: rest2)
        else (c :: s :: d, rest2.dropWhile Char.isDigit)
      else
        let d := (s :: rest2).takeWhile Char.isDigit
        if d = [] then ([], c :: s :: rest2)
        else (c :: d, (s :: rest2).dropWhile Char.isDigit)
    else ([], c :: s :: rest2)
  | cs => ([], cs)

/-- A signed number `-? \d*\.?\d+ (exp)?`. -/
def parseNumber (cs : List Char) : Option (List Char × List Char) :=
  match cs with
  | '-' :: rest =>
    match parseCore rest with
    | none => none
    | some (m, r) =>
      let (e, r2) := parseExpPart r
      some ('-' :: (m ++ e), r2)
  | _ =>
    match parseCore cs with
    | none => none
    | some (m, r) =>
      let (e, r2) := parseExpPart r
      some (m ++ e, r2)

/-- One coordinate block `\s* number \s* ,? \s*`. -/
def parseBlock (cs : List Char) : Option (List Char × List Char) :=
  let w1 := cs.takeWhile isWS
  let r1 := cs.dropWhile isWS
  match parseNumber r1 with
  | none => none
  | some (num, r2) =>
    let w2 := r2.takeWhile isWS
    let r3 := r2.dropWhile isWS
    let (cm, r4) : List Char × List Char :=
      match r3 with
      | ',' :: t => ([','], t)
      | _ => ([], r3)
    let w3 := r4.takeWhile isWS
    let r5 := r4.dropWhile isWS
    some (w1 ++ num ++ w2 ++ cm ++ w3, r5)

/-- Greedy repetition `(block)*`; the fuel only bounds the number of blocks
(each successful block consumes at least one character, so `cs.length` fuel
is always enough). -/
def coordsGroupAux : ℕ → List Char → List Char × List Char
  | 0, cs => ([], cs)
  | fuel + 1, cs =>
    match parseBlock cs with
    | none => ([], cs)
    | some (m, r) =>
      let (m2, r2) := coordsGroupAux fuel r
      (m ++ m2, r2)

/-- The full coordinate-group capture after a command letter. -/
def coordsGroup (cs : List Char) : List Char × List Char :=
  coordsGroupAux cs.length cs

/-- One raw regex match: the letter, its upper-cased kind, and the captured
coordinate text. -/
structure RawCommand where
  letter : Char
  cmd : PathCommand
  group : List Char
deriving DecidableEq

/-- The `while ((match = regex.exec(pathString)) !== null)` loop.  Fuel is the
input length (each step consumes at least one character). -/
def scanAux : ℕ → List Char → List RawCommand
  | 0, _ => []
  | _ + 1, [] => []
  | fuel + 1, c :: rest =>
    match commandOfChar c with
    | some pc =>
      let (g, r2) := coordsGroup rest
      { letter := c, cmd := pc, group := g } :: scanAux fuel r2
    | none => scanAux fuel rest

def scanPath (cs : List Char) : List RawCommand := scanAux cs.length cs

/-! ## Numeric token parsing (`parseCoordinates` and JS `parseFloat`) -/

def digitsToNat (ds : List Char) : ℕ :=
  ds.foldl (fun acc c => acc * 10 + (c.toNat - 48)) 0

/-- `10^e` for an integer exponent, via ℕ-powers only. -/
def pow10 (e : ℤ) : ℚ :=
  if 0 ≤ e then (10 : ℚ) ^ e.toNat else 1 / (10 : ℚ) ^ (-e).toNat

/-- Exponent part for `parseFloat`: returns the exponent value, consuming
nothing (exponent 0) when no full exponent is present. -/
def parseExpVal (cs : List Char) : ℤ × List Char :=
  match cs with
  | c :: rest =>
    if c = 'e' ∨ c = 'E' then
      match rest with
      | s :: rest2 =>
        if s = '+' then
          let d := rest2.takeWhile Char.isDigit
          if d = [] then (0, cs) else ((digitsToNat d : ℤ), rest2.dropWhile Char.isDigit)
        else if s = '-' then
          let d := rest2.takeWhile Char.isDigit
          if d = [] then (0, cs) else (-(digitsToNat d : ℤ), rest2.dropWhile Char.isDigit)
        else
          let d := rest.takeWhile Char.isDigit
          if d = [] then (0, cs) else ((digitsToNat d : ℤ), rest.dropWhile Char.isDigit)
      | [] => (0, cs)
    else (0, cs)
  | [] => (0, cs)

/-- The optional sign of JS `parseFloat` (it accepts both `+` and `-`). -/
def parseFloatSign : List Char → ℚ × List Char
  | '+' :: r => (1, r)
  | '-' :: r => (-1, r)
  | cs => (1, cs)

/-- The unsigned magnitude of JS `parseFloat`: the longest prefix
`digits+ ('.' digits*)? exp?` or `'.' digits+ exp?`; `none` models `NaN`. -/
def parseFloatMag (cs2 : List Char) : Option ℚ :=
  let d1 := cs2.takeWhile Char.isDigit
  let r1 := cs2.dropWhile Char.isDigit
  if d1 ≠ [] then
    let (frac, r2) : List Char × List Char :=
      match r1 with
      | '.' :: t => (t.takeWhile Char.isDigit, t.dropWhile Char.isDigit)
      | _ => ([], r1)
    let (ex, _) := parseExpVal r2
    some (((digitsToNat d1 : ℚ) + (digitsToNat frac : ℚ) / (10 : ℚ) ^ frac.length) * pow10 ex)
  else
    match r1 with
    | '.' :: t =>
      let d2 := t.takeWhile Char.isDigit
      let r3 := t.dropWhile Char.isDigit
      if d2 = [] then none
      else
        let (ex, _) := parseExpVal r3
        some (((digitsToNat d2 : ℚ) / (10 : ℚ) ^ d2.length) * pow10 ex)
    | _ => none

/-- JavaScript `parseFloat`: skip leading whitespace, optional sign, then the
longest numeric prefix; trailing garbage ignored; `none` models `NaN`.  (The
host function also accepts the keyword `Infinity`, which cannot arise from
the path alphabet and has no `ℚ` value; it is deliberately not modelled.) -/
def parseFloatQ (cs : List Char) : Option ℚ :=
  let cs1 := cs.dropWhile isWS
  let (sgn, cs2) := parseFloatSign cs1
  match parseFloatMag cs2 with
  | some m => some (sgn * m)
  | none => none

/-- `split(/[\s,]+/)` followed by `filter(Boolean)`: the non-empty maximal
separator-free runs, via an accumulator for the current token (kept
reversed). -/
def splitTokensAux : List Char → List Char → List (List Char)
  | [], acc => if acc.isEmpty then [] else [acc.reverse]
  | c :: cs, acc =>
    if isSep c then
      if acc.isEmpty then splitTokensAux cs [] else acc.reverse :: splitTokensAux cs []
    else splitTokensAux cs (c :: acc)

def splitTokens (cs : List Char) : List (List Char) := splitTokensAux cs []

/-- `Array.prototype.map` over a throwing callback: the first `error` aborts
the whole traversal (no partial list escapes). -/
def mapExcept (f : α → Except ε β) : List α → Except ε (List β)
  | [] => .ok []
  | a :: l =>
    match f a with
    | .error e => .error e
    | .ok b =>
      match mapExcept f l with
      | .error e => .error e
      | .ok bs => .ok (b :: bs)

def exceptIsOk : Except ε α → Bool
  | .ok _ => true
  | .error _ => false

/-- `private parseCoordinates(coordsStr)`: trim, split on `[\s,]+`, drop empty
tokens, `parseFloat` each; an unparseable token throws
`Invalid coordinate: ...`. -/
def parseCoordinates (cs : List Char) : Except String (List ℚ) :=
  if jsTrim cs = [] then .ok []
  else
    mapExcept
      (fun tok =>
        match parseFloatQ tok with
        | some q => .ok q
        | none => .error ("Invalid coordinate: " ++ String.mk tok))
      (splitTokens (jsTrim cs))

/-- `private validatePath(pathString)`: the list of error strings (the
`typeof` check is vacuous under the TS types and is omitted). `isValid` is
`= []`. -/
def validatePath (s : String) : List String :=
  (if jsTrim s.data = [] then ["Path cannot be empty"] else []) ++
    (if s.data.all validChar then [] else ["Path contains invalid characters"])

/-- `public parsePath(pathString)`. -/
def parsePath (s : String) : Except String ParsedPath :=
  match validatePath s with
  | [] =>
    (mapExcept
        (fun rc =>
          match parseCoordinates rc.group with
          | .error e => .error e
          | .ok qs =>
            .ok { command := rc.cmd, isRelative := rc.letter.isLower,
                  coords := qs, original := String.mk (rc.letter :: rc.group) })
        (scanPath s.data)).map
      (fun cmds => { commands := cmds, totalLength := cmds.length })
  | errs => .error ("Invalid path: " ++ String.intercalate ", " errs)

/-! ## Command normalizer (`toAbsolute`) -/

/-- `interface Point`. -/
structure Point where
  x : ℚ
  y : ℚ
deriving DecidableEq

/-- The pair-offset loop `for (i = 0; i < coords.length; i += 2)` of
`convertToAbsolute`.  On an odd-length list the source's final iteration
writes `coords[i] += x` and then appends `undefined + y = NaN`; `NaN` has no
`ℚ` value, so the embedding keeps the `x`-offset and drops the appended NaN —
the theorems below only ever use even-length coordinate lists, where the two
agree exactly. -/
def offsetPairs (p : Point) : List ℚ → List ℚ
  | a :: b :: rest => (a + p.x) :: (b + p.y) :: offsetPairs p rest
  | [a] => [a + p.x]
  | [] => []

/-- `private convertToAbsolute(command, coords, currentPoint)` (the switch);
returns the new coordinate list instead of mutating in place.  The source has
no `Z` case, so `Z` falls through unchanged. -/
def convertToAbsolute (command : PathCommand) (coords : List ℚ) (current : Point) : List ℚ :=
  match command with
  | .M | .L | .T | .C | .S | .Q => offsetPairs current coords
  | .H =>
    match coords with
    | x :: r => (x + current.x) :: r
    | [] => []
  | .V =>
    match coords with
    | y :: r => (y + current.y) :: r
    | [] => []
  | .A =>
    if coords.length ≥ 7 then
      (coords.set 5 (coords.getD 5 0 + current.x)).set 6 (coords.getD 6 0 + current.y)
    else coords
  | .Z => coords

/-- `private updateCurrentPosition(command, coords, currentPoint, startPoint)`. -/
def updateCurrentPosition (command : PathCommand) (coords : List ℚ)
    (current start : Point) : Point :=
  match command with
  | .M | .L | .T | .C | .S | .Q =>
    if coords.length ≥ 2 then
      { x := coords.getD (coords.length - 2) 0, y := coords.getD (coords.length - 1) 0 }
    else current
  | .H => if coords.length ≥ 1 then { x := coords.getD 0 0, y := current.y } else current
  | .V => if coords.length ≥ 1 then { x := current.x, y := coords.getD 0 0 } else current
  | .A => if coords.length ≥ 7 then { x := coords.getD 5 0, y := coords.getD 6 0 } else current
  | .Z => start

/-- The fold inside `public toAbsolute(commands)`, threading
`(currentPoint, startPoint)` explicitly. -/
def toAbsoluteAux : List PathCommandObject → Point → Point → List PathCommandObject
  | [], _, _ => []
  | cmd :: rest, cur, st =>
    let newCoords :=
      if cmd.isRelative && !cmd.coords.isEmpty then
        convertToAbsolute cmd.command cmd.coords cur
      else cmd.coords
    let cur1 := updateCurrentPosition cmd.command newCoords cur st
    let st2 := if cmd.command = .M then cur1 else st
    let cur2 := if cmd.command = .Z then st else cur1
    { cmd with coords := newCoords, isRelative := false } ::
      toAbsoluteAux rest cur2 st2

/-- `public toAbsolute(commands)`: both cursor points start at the origin. -/
def toAbsolute (commands : List PathCommandObject) : List PathCommandObject :=
  toAbsoluteAux commands ⟨0, 0⟩ ⟨0, 0⟩

/-! ## Include/exclude options and `shouldInterpolate` -/

/-- An entry of the `include`/`exclude` arrays: a command type or an index. -/
inductive CmdOrIdx
  | cmd (c : PathCommand)
  | idx (n : ℕ)
deriving DecidableEq

/-- `interface InterpolatorOptions` with the constructor's defaults
(`include: []`, `exclude: []`, `maxSegmentLength: 10`; the latter is accepted
but unused by the interpolation logic, as in the source). -/
structure InterpolatorOptions where
  includeList : List CmdOrIdx := []
  excludeList : List CmdOrIdx := []
  maxSegmentLength : ℚ := 10
deriving DecidableEq

/-- `private shouldInterpolate(cmd, index)`: exclude (by type or index) wins;
otherwise a non-empty include list decides; otherwise everything except `Z`. -/
def shouldInterpolate (o : InterpolatorOptions) (cmd : PathCommandObject) (index : ℕ) : Bool :=
  if o.excludeList.length > 0 &&
      (o.excludeList.contains (.cmd cmd.command) || o.excludeList.contains (.idx index)) then
    false
  else if o.includeList.length > 0 then
    o.includeList.contains (.cmd cmd.command) || o.includeList.contains (.idx index)
  else
    cmd.command != .Z

/-! ## Path aligner (`normalizePaths`) -/

/-- The default pad command of `padCommands` for an empty list. -/
def defaultPadCommand : PathCommandObject :=
  { command := .L, isRelative := false, coords := [0, 0], original := "L 0 0" }

/-- `private padCommands(commands, targetLength)`: append copies of the last
command (every appended copy equals the original last command, so the
`while` loop is a `replicate`).  Note the source's `{ ...lastCmd }` is a
shallow copy whose `coords` array is shared with the original command; the
pure model gives each copy its own list.  None of the concrete inputs used in
the theorems below ever pads a shared array afterwards, so model and source
agree on them. -/
def padCommands (cmds : List PathCommandObject) (target : ℕ) : List PathCommandObject :=
  cmds ++
    List.replicate (target - cmds.length)
      (match cmds.getLast? with
       | some l => l
       | none => defaultPadCommand)

/-- The `while (cmd.coords.length < targetLength)` loop of
`private padCoordinates`: each iteration pushes the pair
`(lastX, lastY)` — two values, even when one would suffice.  Fuel `target`
bounds the iterations. -/
def padCoordsAux : ℕ → List ℚ → ℕ → List ℚ
  | 0, cs, _ => cs
  | fuel + 1, cs, target =>
    if cs.length < target then
      let lastX := if cs.length ≥ 2 then cs.getD (cs.length - 2) 0 else 0
      let lastY := if cs.length ≥ 1 then cs.getD (cs.length - 1) 0 else 0
      padCoordsAux fuel (cs ++ [lastX, lastY]) target
    else cs

/-- `private padCoordinates(cmd, targetLength)`. -/
def padCoordinates (cmd : PathCommandObject) (target : ℕ) : PathCommandObject :=
  { cmd with coords := padCoordsAux target cmd.coords target }

/-- Body of the `normalizeCoordinates` loop for one index. -/
def normalizeCoordsPair (c1 c2 : PathCommandObject) : PathCommandObject × PathCommandObject :=
  if c1.coords.length ≠ c2.coords.length then
    let m := max c1.coords.length c2.coords.length
    (padCoordinates c1 m, padCoordinates c2 m)
  else (c1, c2)

/-- `private normalizeCoordinates(commands1, commands2)`; the source loop runs
over `commands1.length` with both lists already of equal length at the only
call site. -/
def normalizeCoordinates (l1 l2 : List PathCommandObject) :
    List PathCommandObject × List PathCommandObject :=
  (List.zipWith normalizeCoordsPair l1 l2).unzip

/-- `private normalizePaths(path1Commands, path2Commands)`. -/
def normalizePaths (l1 l2 : List PathCommandObject) :
    List PathCommandObject × List PathCommandObject :=
  let maxLength := max l1.length l2.length
  normalizeCoordinates (padCommands l1 maxLength) (padCommands l2 maxLength)

/-! ## Interpolation factory -/

/-- `private lerp(a, b, t)`. -/
def lerp (a b t : ℚ) : ℚ := a + (b - a) * t

/-- The per-coordinate map `cmdA.coords.map((coordA, i) => lerp(coordA,
cmdB.coords[i] ?? coordA, t))`: when `B` runs out, `coordA` replaces the
missing value. -/
def lerpCoords (t : ℚ) : List ℚ → List ℚ → List ℚ
  | [], _ => []
  | a :: as, [] => lerp a a t :: lerpCoords t as []
  | a :: as, b :: bs => lerp a b t :: lerpCoords t as bs

/-- `Math.max(0, Math.min(1, t))`. -/
def clamp01 (t : ℚ) : ℚ := max 0 (min 1 t)

/-- One index of the interpolation closure's `map` (already-clamped `ct`). -/
def interpCmd (o : InterpolatorOptions) (ct : ℚ) (index : ℕ)
    (cmdA cmdB : PathCommandObject) : PathCommandObject :=
  if !shouldInterpolate o cmdA index then
    (if ct < 1/2 then cmdA else cmdB)
  else
    { command := if ct < 1/2 then cmdA.command else cmdB.command,
      coords := lerpCoords ct cmdA.coords cmdB.coords,
      isRelative := false, original := "" }

/-- `normalizedA.map((cmdA, index) => ...)` with `cmdB = normalizedB[index]`.
The source lists always have equal length at the call site (the JS code would
throw on `undefined.coords` otherwise); the embedding stops at the shorter
list. -/
def interpZip (o : InterpolatorOptions) (ct : ℚ) :
    ℕ → List PathCommandObject → List PathCommandObject → List PathCommandObject
  | _, [], _ => []
  | _, _ :: _, [] => []
  | i, a :: as, b :: bs => interpCmd o ct i a b :: interpZip o ct (i + 1) as bs

/-- The command list produced by the interpolation closure at progress `t`. -/
def interpolateCommandsAt (o : InterpolatorOptions)
    (na nb : List PathCommandObject) (t : ℚ) : List PathCommandObject :=
  interpZip o (clamp01 t) 0 na nb

/-! ## Serialization (`commandsToPath`) -/

/-- Three-digit zero-padded decimal, the fraction part of `toFixed(3)`. -/
def pad3 (n : ℕ) : String :=
  if n < 10 then "00" ++ toString n
  else if n < 100 then "0" ++ toString n
  else toString n

def stripTrailingZeros (s : String) : String :=
  String.mk ((s.data.reverse.dropWhile (· = '0')).reverse)

/-- `c.toFixed(3)` as a rational: round to 3 decimal places, half away from
zero. -/
def roundTo3 (q : ℚ) : ℚ :=
  if 0 ≤ q then ((⌊q * 1000 + 1/2⌋ : ℤ) : ℚ) / 1000
  else -(((⌊(-q) * 1000 + 1/2⌋ : ℤ) : ℚ) / 1000)

/-- `Number(r.toFixed(3)).toString()` for `r` with denominator dividing 1000:
decimal rendering with the trailing fraction zeros trimmed. -/
def ratToDecimalString (r : ℚ) : String :=
  let m : ℤ := r.num * (1000 / (r.den : ℤ))
  let s := if m < 0 then "-" else ""
  let a := m.natAbs
  let ip := a / 1000
  let fp := a % 1000
  if fp = 0 then s ++ toString ip
  else s ++ toString ip ++ "." ++ stripTrailingZeros (pad3 fp)

/-- `Number.isInteger(c) ? c.toString() : Number(c.toFixed(3)).toString()`. -/
def formatNum (q : ℚ) : String :=
  if q.den = 1 then toString q.num
  else ratToDecimalString (roundTo3 q)

/-- One command's emitted text inside `commandsToPath`. -/
def commandToString (cmd : PathCommandObject) : String :=
  if cmd.coords.isEmpty then pathCommandString cmd.command
  else
    pathCommandString cmd.command ++ " " ++
      String.intercalate " " (cmd.coords.map formatNum)

/-- `private commandsToPath(commands)`. -/
def commandsToPath (cmds : List PathCommandObject) : String :=
  String.intercalate " " (cmds.map commandToString)

/-- The interpolation closure's full body at progress `t`. -/
def interpolateAt (o : InterpolatorOptions)
    (na nb : List PathCommandObject) (t : ℚ) : String :=
  commandsToPath (interpolateCommandsAt o na nb t)

/-- Lines 340–346 of `public interpolate(pathA, pathB)`: parse both paths,
absolutize, align; parse errors propagate to the caller. -/
def interpolateSetup (pathA pathB : String) :
    Except String (List PathCommandObject × List PathCommandObject) := do
  let pa ← parsePath pathA
  let pb ← parsePath pathB
  .ok (normalizePaths (toAbsolute pa.commands) (toAbsolute pb.commands))

/-- `interpolate(pathA, pathB)` evaluated at one progress value. -/
def interpEval (o : InterpolatorOptions) (a b : String) (t : ℚ) : Except String String :=
  (interpolateSetup a b).map (fun p => interpolateAt o p.1 p.2 t)

/-- Same, stopping before serialization. -/
def interpCmdsEval (o : InterpolatorOptions) (a b : String) (t : ℚ) :
    Except String (List PathCommandObject) :=
  (interpolateSetup a b).map (fun p => interpolateCommandsAt o p.1 p.2 t)

/-- The state captured by the interpolation closure: the options and the
aligned pair.  The closure body (source lines 348–376) only *reads* this
state — `Array.prototype.map` allocates fresh arrays and `lerp`,
`shouldInterpolate` and `commandsToPath` are read-only — so a call returns
the captured state unchanged. -/
structure InterpClosureState where
  opts : InterpolatorOptions
  normA : List PathCommandObject
  normB : List PathCommandObject

/-- One call of the interpolation function, with the captured state threaded
explicitly: result string plus the state as left behind by the call. -/
def interpClosureCall (s : InterpClosureState) (t : ℚ) : String × InterpClosureState :=
  (interpolateAt s.opts s.normA s.normB t, s)

/-! ## Animation driver (`animatePath`)

`requestAnimationFrame` and `performance.now` are host primitives; the
embedding models a run by the sequence of frame timestamps the host delivers,
and callback/attribute side effects as an event list. -/

/-- The per-animation state captured by `animatePath` before the first frame:
start timestamp, options after defaulting, and the interpolator closure. -/
structure AnimRun where
  startTime : ℚ
  duration : ℚ
  easing : ℚ → ℚ
  interp : ℚ → String

/-- Lines 407–417 plus the initial `requestAnimationFrame(animate)`: apply
option defaults, build the interpolator (the only failure source — parse
errors), capture `startTime`, and schedule.  The source performs **no
validation whatsoever** of `duration` or `easing`. -/
def animatePathStart (fromPath toPath : String) (duration : ℚ) (easing : ℚ → ℚ)
    (o : InterpolatorOptions) (now : ℚ) : Except String AnimRun :=
  (interpolateSetup fromPath toPath).map fun p =>
    { startTime := now, duration := duration, easing := easing,
      interp := fun t => interpolateAt o p.1 p.2 t }

/-- Observable effects of one frame: the attribute write, the `onUpdate`
call, and (on the final frame) the `onComplete` call. -/
inductive AnimEvent
  | setAttr (runId : ℕ) (path : String)
  | update (runId : ℕ) (path : String) (progress : ℚ)
  | complete (runId : ℕ) (path : String)
deriving DecidableEq

/-- The body of `function animate(currentTime)`: returns the emitted events
and whether another frame gets scheduled (`progress < 1`). -/
def animateFrame (r : AnimRun) (runId : ℕ) (currentTime : ℚ) : List AnimEvent × Bool :=
  let elapsed := currentTime - r.startTime
  let progress := min (elapsed / r.duration) 1
  let eased := r.easing progress
  let p := r.interp eased
  ([.setAttr runId p, .update runId p eased] ++
      (if progress < 1 then [] else [.complete runId p]),
    progress < 1)

/-- A whole run: frames are delivered at the host-chosen timestamps until the
run stops rescheduling.  Each `animatePath` call owns its own `AnimRun`;
the source keeps **no registry keyed by target and no cancellation handle**,
so distinct runs never observe each other. -/
def runAnimation (r : AnimRun) (runId : ℕ) : List ℚ → List AnimEvent
  | [] => []
  | t :: ts =>
    let (evs, cont) := animateFrame r runId t
    evs ++ (if cont then runAnimation r runId ts else [])

def isCompleteEvent : AnimEvent → Bool
  | .complete _ _ => true
  | _ => false

/-! ## Auxiliary notions used by the theorems -/

/-- The observable part of a command for the endpoint claims: its type and
its coordinates. -/
def cmdProj (c : PathCommandObject) : PathCommand × List ℚ := (c.command, c.coords)

/-- Decidable form of the spec's *Aligned Pair*: equal length and, index-wise,
equal coordinate-array length. -/
def alignedB : List PathCommandObject → List PathCommandObject → Bool
  | [], [] => true
  | a :: as, b :: bs => (a.coords.length == b.coords.length) && alignedB as bs
  | _, _ => false

def headIsDigit : List Char → Bool
  | [] => false
  | d :: _ => d.isDigit

/-- Head pattern guaranteeing that JS `parseFloat` finds a numeric prefix
after an optional leading minus: a digit, or a dot followed by a digit. -/
def goodCore : List Char → Bool
  | [] => false
  | c :: rest => c.isDigit || (c = '.' && headIsDigit rest)

/-- Head pattern guaranteeing that JS `parseFloat` does not return `NaN` on
a token: a digit, a minus followed by a `goodCore` head, or a dot followed
by a digit.  The pattern only constrains a 3-character prefix, so it is
preserved by appending arbitrary text. -/
def goodTok : List Char → Bool
  | [] => false
  | c :: rest => c.isDigit || (c = '-' && goodCore rest) || (c = '.' && headIsDigit rest)

/-! ## Claim C1 — aligner output shape

`normalizePaths` pads coordinate arrays with `padCoordinates`, which appends a
full `(lastX, lastY)` *pair* per iteration; when the two commands' coordinate
counts differ by an odd amount the shorter array overshoots the target by one
and the aligned commands end up with *unequal* coordinate lengths, violating
both the spec contract and the source's own comment
("Ensure commands have the same number of coordinates"). -/

/-- C1 (code_bug evidence): on the valid inputs `"H 5"` (one coordinate) and
`"L 1 2"` (two coordinates) the aligner returns coordinate arrays of lengths
3 and 2 — `padCoordinates` pushed the pair `(0, 5)` onto `[5]`. -/
theorem claim1_unequal_coordinate_lengths :
    (interpolateSetup "H 5" "L 1 2").map
        (fun p => (p.1.map (fun c => c.coords), p.2.map (fun c => c.coords))) =
      .ok ([[5, 0, 5]], [[1, 2]]) ∧
    (interpolateSetup "H 5" "L 1 2").map
        (fun p => (p.1.map (fun c => c.coords.length), p.2.map (fun c => c.coords.length))) =
      .ok ([3], [2]) ∧
    (3 : ℕ) ≠ 2 := by
  refine ⟨by with_unfolding_all rfl, by with_unfolding_all rfl, by decide⟩

/-! ## Claim C4 — referential purity of the interpolation closure -/

/-- C4: the interpolation function is referentially pure.  With the captured
state threaded explicitly, a call leaves the state unchanged, a repeated call
at the same `t` returns the identical string, and a call at any other
progress value in between does not affect the result (order independence). -/
theorem claim4_closure_pure (s : InterpClosureState) (t t₂ : ℚ) :
    (interpClosureCall s t).2 = s ∧
    (interpClosureCall ((interpClosureCall s t).2) t).1 = (interpClosureCall s t).1 ∧
    (interpClosureCall ((interpClosureCall s t₂).2) t).1 = (interpClosureCall s t).1 :=
  ⟨rfl, rfl, rfl⟩

/-! ## Claim C5 — the growth scenario -/

/-- C5 (counterexample): in the spec scenario
`interpolate("M0,0 L10,10", "M0,0 L10,10 L20,0")` the claim fails three ways:
at `t=0` the emitted path has 3 commands (not 2); at `t=1/4` the padded third
command is already `(12.5, 7.5)` (not frozen at its own last point
`(10, 10)`); at `t=1/2` it is the linear midpoint `(15, 5)` (it has not
"switched to `(20, 0)`"). -/
theorem claim5_counterexample :
    (interpCmdsEval {} "M0,0 L10,10" "M0,0 L10,10 L20,0" 0).map List.length = .ok 3 ∧
    (3 : ℕ) ≠ 2 ∧
    (interpCmdsEval {} "M0,0 L10,10" "M0,0 L10,10 L20,0" (1/4)).map
        (fun l => (l.getD 2 defaultPadCommand).coords) = .ok [25/2, 15/2] ∧
    ([25/2, 15/2] : List ℚ) ≠ [10, 10] ∧
    (interpCmdsEval {} "M0,0 L10,10" "M0,0 L10,10 L20,0" (1/2)).map
        (fun l => (l.getD 2 defaultPadCommand).coords) = .ok [15, 5] ∧
    ([15, 5] : List ℚ) ≠ [20, 0] := by
  refine ⟨by with_unfolding_all rfl, by decide, by with_unfolding_all rfl, by with_unfolding_all decide, by with_unfolding_all rfl, by with_unfolding_all decide⟩

/-- C5 (amended): `t=0` yields the 3-command path `M 0 0 L 10 10 L 10 10`
(the padded third command duplicates the shorter path's last point, so the
geometry still ends at `(10,10)`); `t=1` yields the 3-command target path;
at `t=1/2` the second command is `(10,10)` (the mean of `(10,10)` and
`(10,10)`) and the padded third command's coordinates are linearly
interpolated between `(10,10)` and `(20,0)`, giving `(15,5)`. -/
theorem claim5_scenario :
    interpEval {} "M0,0 L10,10" "M0,0 L10,10 L20,0" 0 = .ok "M 0 0 L 10 10 L 10 10" ∧
    interpEval {} "M0,0 L10,10" "M0,0 L10,10 L20,0" 1 = .ok "M 0 0 L 10 10 L 20 0" ∧
    interpEval {} "M0,0 L10,10" "M0,0 L10,10 L20,0" (1/2) = .ok "M 0 0 L 10 10 L 15 5" := by
  refine ⟨by with_unfolding_all rfl, by with_unfolding_all rfl, by with_unfolding_all rfl⟩

/-! ## Claim C8 — no fail-fast validation in `animatePath` -/

/-- C8 (code_bug evidence): `animatePath` performs no validation of its
options.  Starting an animation with a non-positive `duration` (and any
easing) succeeds and schedules the first frame; nothing fails before the
frame callback runs, contradicting the required fail-fast behaviour. -/
theorem claim8_no_fail_fast (duration : ℚ) (easing : ℚ → ℚ) (now : ℚ)
    (h : duration ≤ 0) :
    exceptIsOk (animatePathStart "M0,0 L10,10" "M0,0 L20,20" duration easing {} now) = true := by
  with_unfolding_all rfl

/-- Witness: `duration = 0` is accepted at animation start. -/
theorem claim8_no_fail_fast_witness :
    (0 : ℚ) ≤ 0 ∧
      exceptIsOk (animatePathStart "M0,0 L10,10" "M0,0 L20,20" 0 id {} 0) = true :=
  ⟨le_refl 0, claim8_no_fail_fast 0 id 0 (le_refl 0)⟩

/-! ## Claim C9 — no cancellation of superseded runs -/

/-- C9 (code_bug evidence): two `animatePath` runs on the same target share no
state — the source keeps no per-target registry and no frame-request handle —
so after a second call (at `now = 10`) the first run keeps scheduling frames
and still fires its completion callback with the final path.  The first
conjunct shows the first run reaching `complete`; the second shows the
second, later run mid-flight at the same time (both are live). -/
theorem claim9_previous_run_still_completes :
    (animatePathStart "M0,0" "M10,10" 1000 id {} 0).map
        (fun r => (runAnimation r 1 [500, 1000]).filter isCompleteEvent) =
      .ok [.complete 1 "M 10 10"] ∧
    (animatePathStart "M0,0" "M10,10" 1000 id {} 10).map
        (fun r => (runAnimation r 2 [510]).filter isCompleteEvent) = .ok [] := by
  refine ⟨by with_unfolding_all rfl, by with_unfolding_all rfl⟩

/-! ## Claim C2 — endpoint exactness of the interpolation -/

lemma lerp_zero (a b : ℚ) : lerp a b 0 = a := by unfold lerp; ring

lemma lerp_one (a b : ℚ) : lerp a b 1 = b := by unfold lerp; ring

lemma lerpCoords_zero : ∀ (as bs : List ℚ), lerpCoords 0 as bs = as
  | [], _ => rfl
  | a :: as, [] => by
    simp only [lerpCoords, lerp_zero]
    exact congrArg _ (lerpCoords_zero as [])
  | a :: as, b :: bs => by
    simp only [lerpCoords, lerp_zero]
    exact congrArg _ (lerpCoords_zero as bs)

lemma lerpCoords_one : ∀ (as bs : List ℚ), as.length = bs.length → lerpCoords 1 as bs = bs
  | [], [], _ => rfl
  | [], _ :: _, h => by simp at h
  | _ :: _, [], h => by simp at h
  | a :: as, b :: bs, h => by
    simp only [lerpCoords, lerp_one]
    exact congrArg _ (lerpCoords_one as bs (by simpa using h))

lemma clamp01_zero : clamp01 0 = 0 := by norm_num [clamp01]

lemma clamp01_one : clamp01 1 = 1 := by norm_num [clamp01]

lemma interpCmd_zero (o : InterpolatorOptions) (i : ℕ) (a b : PathCommandObject) :
    cmdProj (interpCmd o 0 i a b) = cmdProj a := by
  unfold interpCmd
  have hlt : (0 : ℚ) < 1/2 := by norm_num
  by_cases h : shouldInterpolate o a i
  · simp [h, cmdProj, lerpCoords_zero, hlt]
  · simp [h, cmdProj, hlt]

lemma interpCmd_one (o : InterpolatorOptions) (i : ℕ) (a b : PathCommandObject)
    (hlen : a.coords.length = b.coords.length) :
    cmdProj (interpCmd o 1 i a b) = cmdProj b := by
  unfold interpCmd
  have hlt : ¬ ((1 : ℚ) < 1/2) := by norm_num
  by_cases h : shouldInterpolate o a i
  · rw [if_neg (by simp [h])]
    unfold cmdProj
    rw [if_neg hlt, lerpCoords_one a.coords b.coords hlen]
  · have hb : shouldInterpolate o a i = false := by
      cases hsi : shouldInterpolate o a i
      · rfl
      · exact absurd hsi h
    rw [if_pos (by simp [hb]), if_neg hlt]

lemma interpZip_proj_zero (o : InterpolatorOptions) :
    ∀ (i : ℕ) (na nb : List PathCommandObject), alignedB na nb = true →
      (interpZip o 0 i na nb).map cmdProj = na.map cmdProj
  | _, [], [], _ => rfl
  | _, [], _ :: _, h => by simp [alignedB] at h
  | _, _ :: _, [], h => by simp [alignedB] at h
  | i, a :: as, b :: bs, h => by
    rw [alignedB, Bool.and_eq_true] at h
    simp only [interpZip, List.map_cons, interpCmd_zero]
    exact congrArg _ (interpZip_proj_zero o (i + 1) as bs h.2)

lemma interpZip_proj_one (o : InterpolatorOptions) :
    ∀ (i : ℕ) (na nb : List PathCommandObject), alignedB na nb = true →
      (interpZip o 1 i na nb).map cmdProj = nb.map cmdProj
  | _, [], [], _ => rfl
  | _, [], _ :: _, h => by simp [alignedB] at h
  | _, _ :: _, [], h => by simp [alignedB] at h
  | i, a :: as, b :: bs, h => by
    rw [alignedB, Bool.and_eq_true] at h
    have hlen : a.coords.length = b.coords.length := by simpa using h.1
    simp only [interpZip, List.map_cons]
    rw [interpCmd_one o i a b hlen, interpZip_proj_one o (i + 1) as bs h.2]

lemma commandToString_proj {c1 c2 : PathCommandObject}
    (h : cmdProj c1 = cmdProj c2) : commandToString c1 = commandToString c2 := by
  unfold cmdProj at h
  obtain ⟨h1, h2⟩ := Prod.mk.injEq .. ▸ h
  unfold commandToString
  rw [h1, h2]

lemma map_commandToString_of_proj :
    ∀ (l1 l2 : List PathCommandObject), l1.map cmdProj = l2.map cmdProj →
      l1.map commandToString = l2.map commandToString
  | [], [], _ => rfl
  | [], _ :: _, h => by simp at h
  | _ :: _, [], h => by simp at h
  | c1 :: t1, c2 :: t2, h => by
    simp only [List.map_cons, List.cons.injEq] at h ⊢
    exact ⟨commandToString_proj h.1, map_commandToString_of_proj t1 t2 h.2⟩

lemma commandsToPath_of_proj {l1 l2 : List PathCommandObject}
    (h : l1.map cmdProj = l2.map cmdProj) : commandsToPath l1 = commandsToPath l2 := by
  unfold commandsToPath
  rw [map_commandToString_of_proj l1 l2 h]

/-- C2: on an aligned pair, the closure at `t = 0` emits exactly sequence A's
command types and coordinates (for every command — interpolated ones via
`lerp a b 0 = a`, pass-through ones verbatim), and at `t = 1` exactly
sequence B's; consequently the emitted strings are the serializations of A
and of B. -/
theorem claim2_endpoint_exact (o : InterpolatorOptions) (na nb : List PathCommandObject)
    (h : alignedB na nb = true) :
    ((interpolateCommandsAt o na nb 0).map cmdProj = na.map cmdProj ∧
      interpolateAt o na nb 0 = commandsToPath na) ∧
    ((interpolateCommandsAt o na nb 1).map cmdProj = nb.map cmdProj ∧
      interpolateAt o na nb 1 = commandsToPath nb) := by
  have h0 : interpolateCommandsAt o na nb 0 = interpZip o 0 0 na nb := by
    unfold interpolateCommandsAt; rw [clamp01_zero]
  have h1 : interpolateCommandsAt o na nb 1 = interpZip o 1 0 na nb := by
    unfold interpolateCommandsAt; rw [clamp01_one]
  have pz := interpZip_proj_zero o 0 na nb h
  have po := interpZip_proj_one o 0 na nb h
  refine ⟨⟨h0 ▸ pz, ?_⟩, ⟨h1 ▸ po, ?_⟩⟩
  · unfold interpolateAt; rw [h0]; exact commandsToPath_of_proj pz
  · unfold interpolateAt; rw [h1]; exact commandsToPath_of_proj po

/-- Witness for C2 on a concrete aligned pair with differing command types. -/
theorem claim2_endpoint_exact_witness :
    alignedB [⟨.M, false, [0, 0], ""⟩] [⟨.L, false, [3, 4], ""⟩] = true ∧
      (interpolateAt {} [⟨.M, false, [0, 0], ""⟩] [⟨.L, false, [3, 4], ""⟩] 0 =
          commandsToPath [⟨.M, false, [0, 0], ""⟩] ∧
        interpolateAt {} [⟨.M, false, [0, 0], ""⟩] [⟨.L, false, [3, 4], ""⟩] 1 =
          commandsToPath [⟨.L, false, [3, 4], ""⟩]) :=
  ⟨by decide,
    (claim2_endpoint_exact {} _ _ (by decide)).1.2,
    (claim2_endpoint_exact {} _ _ (by decide)).2.2⟩

/-! ## Claim C3 — excluded commands -/

lemma interpZip_getD (o : InterpolatorOptions) (ct : ℚ) (d : PathCommandObject) :
    ∀ (j i : ℕ) (na nb : List PathCommandObject), i < na.length → i < nb.length →
      (interpZip o ct j na nb).getD i d = interpCmd o ct (j + i) (na.getD i d) (nb.getD i d)
  | _, i, [], _, h1, _ => absurd h1 (by simp)
  | _, i, _ :: _, [], _, h2 => absurd h2 (by simp)
  | j, 0, a :: as, b :: bs, _, _ => by simp [interpZip]
  | j, i + 1, a :: as, b :: bs, h1, h2 => by
    have := interpZip_getD o ct d (j + 1) i as bs
      (by simpa using h1) (by simpa using h2)
    simpa [interpZip, Nat.add_assoc, Nat.add_comm 1 i] using this

/-- C3 (amended): an excluded command is never coordinate-interpolated — at
every progress value its emitted text is the serialization of the *normalized*
source command, taken from sequence A while `clamp(t) < 0.5` and from
sequence B at or above `0.5`.  (It is the re-serialized absolute form, not
the pre-alignment source text, and it changes at the midpoint when A and B
differ at that index; see the counterexample.) -/
theorem claim3_excluded_passthrough (o : InterpolatorOptions)
    (na nb : List PathCommandObject) (t : ℚ) (i : ℕ) (d : PathCommandObject)
    (hski : shouldInterpolate o (na.getD i d) i = false)
    (h1 : i < na.length) (h2 : i < nb.length) :
    commandToString ((interpolateCommandsAt o na nb t).getD i d) =
      if clamp01 t < 1/2 then commandToString (na.getD i d)
      else commandToString (nb.getD i d) := by
  unfold interpolateCommandsAt
  rw [interpZip_getD o (clamp01 t) d 0 i na nb h1 h2, Nat.zero_add]
  unfold interpCmd
  rw [hski]
  simp only [Bool.not_false, if_true]
  split <;> rfl

/-- Witness for C3's theorem: a `Z` command under `exclude: ['Z']`. -/
theorem claim3_excluded_passthrough_witness :
    shouldInterpolate { excludeList := [.cmd .Z] }
        (([⟨.M, false, [0, 0], "M0,0 "⟩, ⟨.Z, false, [], "Z"⟩] :
            List PathCommandObject).getD 1 defaultPadCommand) 1 = false ∧
      commandToString ((interpolateCommandsAt { excludeList := [.cmd .Z] }
            [⟨.M, false, [0, 0], "M0,0 "⟩, ⟨.Z, false, [], "Z"⟩]
            [⟨.M, false, [5, 5], "M5,5 "⟩, ⟨.Z, false, [], "Z"⟩] (1/4)).getD 1
          defaultPadCommand) =
        if clamp01 (1/4) < 1/2 then
          commandToString (([⟨.M, false, [0, 0], "M0,0 "⟩, ⟨.Z, false, [], "Z"⟩] :
              List PathCommandObject).getD 1 defaultPadCommand)
        else
          commandToString (([⟨.M, false, [5, 5], "M5,5 "⟩, ⟨.Z, false, [], "Z"⟩] :
              List PathCommandObject).getD 1 defaultPadCommand) :=
  ⟨by decide,
    claim3_excluded_passthrough { excludeList := [.cmd .Z] } _ _ (1/4) 1
      defaultPadCommand (by decide) (by decide) (by decide)⟩

/-- C3 (counterexample): with `exclude: ['L']`, at `t = 1` the excluded
command's emitted text is `"L 20 20"` — the re-serialized command of path B —
which is not byte-identical to its pre-alignment source command `"L10,10"`
from path A (nor to B's own source text `"L20,20"`). -/
theorem claim3_counterexample :
    (interpCmdsEval { excludeList := [.cmd .L] } "M0,0 L10,10" "M0,0 L20,20" 1).map
        (fun l => l.map commandToString) = .ok ["M 0 0", "L 20 20"] ∧
    (parsePath "M0,0 L10,10").map (fun p => p.commands.map (fun c => c.original)) =
      .ok ["M0,0 ", "L10,10"] ∧
    ("L 20 20" : String) ≠ "L10,10" := by
  refine ⟨by with_unfolding_all rfl, by with_unfolding_all rfl, by decide⟩

/-! ## Claim C6 — relative-offset arity rules of the normalizer -/

lemma offsetPairs_getD :
    ∀ (as : List ℚ) (p : Point) (i : ℕ), Even as.length → i < as.length →
      (offsetPairs p as).getD i 0 = as.getD i 0 + (if i % 2 = 0 then p.x else p.y)
  | [], _, i, _, hi => absurd hi (by simp)
  | [a], _, i, he, _ => by simp [Nat.even_iff] at he
  | a :: b :: rest, p, 0, _, _ => by simp [offsetPairs]
  | a :: b :: rest, p, 1, _, _ => by simp [offsetPairs]
  | a :: b :: rest, p, i + 2, he, hi => by
    have he' : Even rest.length := by
      simpa [Nat.even_add_one, parity_simps] using he
    have hi' : i < rest.length := by
      simp only [List.length_cons] at hi; omega
    have hmod : (i + 2) % 2 = i % 2 := by omega
    have ih := offsetPairs_getD rest p i he' hi'
    simpa [offsetPairs, hmod] using ih

/-- C6: in `toAbsolute`'s offset step, a relative `A` command with its 7
values gets only the final two (the endpoint) offset by the current point,
the first five are returned untouched; the `M/L/T/C/S/Q` families offset
every coordinate pair (`x` on even positions, `y` on odd); `H` offsets only
its single `x` value and `V` only its single `y` value; and `toAbsolute`
invokes exactly this offset function on every relative command with
coordinates. -/
theorem claim6_offset_arity (coords : List ℚ) (p : Point) :
    (coords.length = 7 →
      convertToAbsolute .A coords p =
        coords.take 5 ++ [coords.getD 5 0 + p.x, coords.getD 6 0 + p.y]) ∧
    (∀ c, c ∈ ([.M, .L, .T, .C, .S, .Q] : List PathCommand) → Even coords.length →
      ∀ i, i < coords.length →
        (convertToAbsolute c coords p).getD i 0 =
          coords.getD i 0 + (if i % 2 = 0 then p.x else p.y)) ∧
    (∀ (x : ℚ) (rest : List ℚ), convertToAbsolute .H (x :: rest) p = (x + p.x) :: rest) ∧
    (∀ (y : ℚ) (rest : List ℚ), convertToAbsolute .V (y :: rest) p = (y + p.y) :: rest) ∧
    (∀ (cmd : PathCommandObject) (cur st : Point), cmd.isRelative = true →
      cmd.coords ≠ [] →
      (toAbsoluteAux [cmd] cur st).map (fun c => c.coords) =
        [convertToAbsolute cmd.command cmd.coords cur]) := by
  refine ⟨?_, ?_, ?_, ?_, ?_⟩
  · intro h7
    obtain ⟨c0, coords, rfl⟩ := List.exists_of_length_succ coords h7
    have h6 : coords.length = 6 := by simpa using h7
    obtain ⟨c1, coords, rfl⟩ := List.exists_of_length_succ coords h6
    have h5 : coords.length = 5 := by simpa using h6
    obtain ⟨c2, coords, rfl⟩ := List.exists_of_length_succ coords h5
    have h4 : coords.length = 4 := by simpa using h5
    obtain ⟨c3, coords, rfl⟩ := List.exists_of_length_succ coords h4
    have h3 : coords.length = 3 := by simpa using h4
    obtain ⟨c4, coords, rfl⟩ := List.exists_of_length_succ coords h3
    have h2 : coords.length = 2 := by simpa using h3
    obtain ⟨c5, coords, rfl⟩ := List.exists_of_length_succ coords h2
    have hh1 : coords.length = 1 := by simpa using h2
    obtain ⟨c6, coords, rfl⟩ := List.exists_of_length_succ coords hh1
    have hh0 : coords.length = 0 := by simpa using hh1
    obtain rfl := List.length_eq_zero.mp hh0
    rfl
  · intro c hc he i hi
    have hop := offsetPairs_getD coords p i he hi
    fin_cases hc <;> simpa [convertToAbsolute] using hop
  · intro x rest; rfl
  · intro y rest; rfl
  · intro cmd cur st h1 h2
    simp [toAbsoluteAux, h1, h2]

/-- Witness for C6 at concrete inputs: a 7-value `A` command, an `L` pair,
and single-value `H`/`V`. -/
theorem claim6_offset_arity_witness :
    convertToAbsolute .A [1, 2, 3, 4, 5, 6, 7] ⟨100, 200⟩ =
        ([1, 2, 3, 4, 5, 6, 7] : List ℚ).take 5 ++
          [([1, 2, 3, 4, 5, 6, 7] : List ℚ).getD 5 0 + 100,
            ([1, 2, 3, 4, 5, 6, 7] : List ℚ).getD 6 0 + 200] ∧
      (convertToAbsolute .L [1, 2] ⟨100, 200⟩).getD 1 0 =
        ([1, 2] : List ℚ).getD 1 0 + (if 1 % 2 = 0 then (100 : ℚ) else 200) ∧
      convertToAbsolute .H [3] ⟨100, 200⟩ = [(3 : ℚ) + 100] ∧
      convertToAbsolute .V [3] ⟨100, 200⟩ = [(3 : ℚ) + 200] :=
  ⟨(claim6_offset_arity [1, 2, 3, 4, 5, 6, 7] ⟨100, 200⟩).1 rfl,
    (claim6_offset_arity [1, 2] ⟨100, 200⟩).2.1 .L (by decide) (by decide) 1 (by decide),
    (claim6_offset_arity [] ⟨100, 200⟩).2.2.1 3 [],
    (claim6_offset_arity [] ⟨100, 200⟩).2.2.2.1 3 []⟩

/-! ## Claim C10 — command-letter-free inputs -/

set_option maxHeartbeats 1000000 in
lemma commandOfChar_eq_none (c : Char)
    (h : (c.isDigit || isWS c || c = ',' || c = '.' || c = '+' || c = '-') = true) :
    commandOfChar c = none := by
  unfold commandOfChar
  split_ifs <;>
    first
      | rfl
      | (rcases ‹_ ∨ _› with rfl | rfl <;> exact absurd h (by decide))

lemma scanAux_eq_nil :
    ∀ (n : ℕ) (cs : List Char), (∀ c ∈ cs, commandOfChar c = none) → scanAux n cs = []
  | 0, _, _ => rfl
  | _ + 1, [], _ => rfl
  | n + 1, c :: rest, h => by
    rw [scanAux, h c (by simp)]
    exact scanAux_eq_nil n rest (fun d hd => h d (by simp [hd]))

lemma validChar_of_numericish (c : Char)
    (h : (c.isDigit || isWS c || c = ',' || c = '.' || c = '+' || c = '-') = true) :
    validChar c = true := by
  unfold validChar
  simp only [Bool.or_eq_true] at h ⊢
  rcases h with ((((h | h) | h) | h) | h) | h <;> simp [h]

/-- C10 (amended): every input made only of digits, whitespace, commas,
periods and plus/minus signs — no command letter — that is moreover not
whitespace-only parses successfully into the empty command list with
`totalLength = 0`. -/
theorem claim10_no_letters_empty_parse (s : String)
    (hchar : s.data.all
        (fun c => c.isDigit || isWS c || c = ',' || c = '.' || c = '+' || c = '-') = true)
    (hne : jsTrim s.data ≠ []) :
    parsePath s = .ok { commands := [], totalLength := 0 } := by
  have hval : s.data.all validChar = true := by
    rw [List.all_eq_true] at hchar ⊢
    exact fun c hc => validChar_of_numericish c (hchar c hc)
  have hv : validatePath s = [] := by
    unfold validatePath
    rw [if_neg hne, hval]
    rfl
  have hscan : scanPath s.data = [] := by
    unfold scanPath
    refine scanAux_eq_nil _ _ (fun c hc => commandOfChar_eq_none c ?_)
    exact List.all_eq_true.mp hchar c hc
  unfold parsePath
  rw [hv, hscan]
  rfl

/-- Witness: a digits/separators/signs-only string parses to the empty
command list. -/
theorem claim10_no_letters_empty_parse_witness :
    parsePath "12, 34.5 +-" = .ok { commands := [], totalLength := 0 } :=
  claim10_no_letters_empty_parse "12, 34.5 +-" (by decide) (by decide)

/-- C10 (counterexample): the single space is non-empty and lies entirely in
the claim's alphabet, yet `parsePath` raises the empty-path error — the
claim's "non-empty" must be strengthened to "not whitespace-only". -/
theorem claim10_counterexample :
    parsePath " " = .error "Invalid path: Path cannot be empty" ∧
    (" " : String) ≠ "" ∧
    (" ".data.all
        (fun c => c.isDigit || isWS c || c = ',' || c = '.' || c = '+' || c = '-')) = true := by
  refine ⟨by rfl, by decide, by decide⟩

/-! ## Claim C7 — parser failure characterization

The interesting half is that a string passing `validatePath` can never make
`parseCoordinates` throw: every token obtained by splitting a scanner-matched
coordinate group starts with the head of some matched number, and such heads
always give `parseFloat` a numeric prefix. -/

lemma sep_of_ws (c : Char) (h : isWS c = true) : isSep c = true := by
  unfold isSep
  rw [h]
  rfl

lemma not_sep_of_digit (c : Char) (h : c.isDigit = true) : isSep c = false := by
  cases hs : isSep c
  · rfl
  · exfalso
    unfold isSep isWS at hs
    simp only [Bool.or_eq_true, decide_eq_true_eq] at hs
    rcases hs with (((((rfl | rfl) | rfl) | rfl) | rfl) | rfl) | rfl <;>
      exact absurd h (by decide)

lemma not_ws_of_digit (c : Char) (h : c.isDigit = true) : isWS c = false :=
  (Bool.or_eq_false_iff.mp (not_sep_of_digit c h)).1

lemma headIsDigit_append (u : List Char) :
    ∀ t, headIsDigit t = true → headIsDigit (t ++ u) = true
  | [], h => by simp [headIsDigit] at h
  | d :: r, h => by simpa [headIsDigit] using h

lemma goodCore_append (u : List Char) :
    ∀ t, goodCore t = true → goodCore (t ++ u) = true
  | [], h => by simp [goodCore] at h
  | c :: rest, h => by
    rw [goodCore] at h
    rw [List.cons_append, goodCore]
    simp only [Bool.or_eq_true, Bool.and_eq_true] at h
    rcases h with h1 | ⟨hd, hr⟩
    · simp [h1]
    · simp [hd, headIsDigit_append u rest hr]

lemma goodTok_append (u : List Char) :
    ∀ t, goodTok t = true → goodTok (t ++ u) = true
  | [], h => by simp [goodTok] at h
  | c :: rest, h => by
    rw [goodTok] at h
    rw [List.cons_append, goodTok]
    simp only [Bool.or_eq_true, Bool.and_eq_true] at h
    rcases h with (h1 | ⟨hd, hr⟩) | ⟨hd, hr⟩
    · simp [h1]
    · simp [hd, goodCore_append u rest hr]
    · simp [hd, headIsDigit_append u rest hr]

lemma goodTok_of_goodCore : ∀ t, goodCore t = true → goodTok t = true
  | [], h => by simp [goodCore] at h
  | c :: rest, h => by
    rw [goodCore] at h
    rw [goodTok]
    simp only [Bool.or_eq_true, Bool.and_eq_true] at h
    rcases h with h1 | ⟨hd, hr⟩
    · simp [h1]
    · simp [hd, hr]

lemma parseFloatSign_other (c : Char) (rest : List Char)
    (h1 : c ≠ '+') (h2 : c ≠ '-') :
    parseFloatSign (c :: rest) = (1, c :: rest) := by
  unfold parseFloatSign
  split
  · next heq => injection heq with ha _; exact absurd ha h1
  · next heq => injection heq with ha _; exact absurd ha h2
  · rfl

lemma parseFloatMag_isSome_digit (c : Char) (rest : List Char) (h : c.isDigit = true) :
    (parseFloatMag (c :: rest)).isSome = true := by
  unfold parseFloatMag
  rw [List.takeWhile_cons_of_pos h]
  simp

lemma parseFloatMag_isSome_dot (d : Char) (rest : List Char) (h : d.isDigit = true) :
    (parseFloatMag ('.' :: d :: rest)).isSome = true := by
  unfold parseFloatMag
  rw [List.takeWhile_cons_of_neg (by decide), List.dropWhile_cons_of_neg (by decide)]
  simp [List.takeWhile_cons_of_pos h]

lemma parseFloatQ_isSome_of_mag (sgn : ℚ) (cs2 cs : List Char)
    (hsign : parseFloatSign (cs.dropWhile isWS) = (sgn, cs2))
    (hmag : (parseFloatMag cs2).isSome = true) :
    (parseFloatQ cs).isSome = true := by
  unfold parseFloatQ
  dsimp only
  rw [hsign]
  obtain ⟨m, hm⟩ := Option.isSome_iff_exists.mp hmag
  rw [hm]
  rfl

lemma parseFloatQ_isSome (t : List Char) (h : goodTok t = true) :
    (parseFloatQ t).isSome = true := by
  cases t with
  | nil => simp [goodTok] at h
  | cons c rest =>
    rw [goodTok] at h
    simp only [Bool.or_eq_true, Bool.and_eq_true, decide_eq_true_eq] at h
    rcases h with (hc | ⟨rfl, hcore⟩) | ⟨rfl, hhd⟩
    · have hws : isWS c = false := not_ws_of_digit c hc
      have hdrop : (c :: rest).dropWhile isWS = c :: rest :=
        List.dropWhile_cons_of_neg (by simp [hws])
      refine parseFloatQ_isSome_of_mag 1 (c :: rest) (c :: rest) ?_
        (parseFloatMag_isSome_digit c rest hc)
      rw [hdrop]
      exact parseFloatSign_other c rest
        (fun he => absurd (he ▸ hc) (by decide))
        (fun he => absurd (he ▸ hc) (by decide))
    · have hdrop : ('-' :: rest).dropWhile isWS = '-' :: rest :=
        List.dropWhile_cons_of_neg (by decide)
      cases rest with
      | nil => simp [goodCore] at hcore
      | cons r0 rest2 =>
        rw [goodCore] at hcore
        simp only [Bool.or_eq_true, Bool.and_eq_true, decide_eq_true_eq] at hcore
        rcases hcore with hr | ⟨rfl, hhd2⟩
        · refine parseFloatQ_isSome_of_mag (-1) (r0 :: rest2) _ ?_
            (parseFloatMag_isSome_digit r0 rest2 hr)
          rw [hdrop]
          rfl
        · cases rest2 with
          | nil => simp [headIsDigit] at hhd2
          | cons d rest3 =>
            refine parseFloatQ_isSome_of_mag (-1) ('.' :: d :: rest3) _ ?_
              (parseFloatMag_isSome_dot d rest3 (by simpa [headIsDigit] using hhd2))
            rw [hdrop]
            rfl
    · cases rest with
      | nil => simp [headIsDigit] at hhd
      | cons d rest2 =>
        have hdrop : ('.' :: d :: rest2).dropWhile isWS = '.' :: d :: rest2 :=
          List.dropWhile_cons_of_neg (by decide)
        refine parseFloatQ_isSome_of_mag 1 ('.' :: d :: rest2) _ ?_
          (parseFloatMag_isSome_dot d rest2 (by simpa [headIsDigit] using hhd))
        rw [hdrop]
        exact parseFloatSign_other '.' (d :: rest2) (by decide) (by decide)

lemma goodCore_of_digit_head (x : Char) (rest : List Char) (h : x.isDigit = true) :
    goodCore (x :: rest) = true := by
  simp [goodCore, h]

lemma goodCore_of_digits (l : List Char) (hne : l ≠ [])
    (hd : ∀ ch ∈ l, ch.isDigit = true) : goodCore l = true := by
  cases l with
  | nil => exact absurd rfl hne
  | cons x xs => exact goodCore_of_digit_head x xs (hd x (by simp))

lemma goodCore_dot_digits (l : List Char) (hne : l ≠ [])
    (hd : ∀ ch ∈ l, ch.isDigit = true) : goodCore ('.' :: l) = true := by
  cases l with
  | nil => exact absurd rfl hne
  | cons y ys => simp [goodCore, headIsDigit, hd y (by simp)]

/-- What a successful `parseCore` match guarantees: a non-empty,
separator-free match with a `parseFloat`-friendly head, consumed from the
front of the input. -/
lemma parseCore_spec (cs m r : List Char) (h : parseCore cs = some (m, r)) :
    goodCore m = true ∧ m ≠ [] ∧ (∀ ch ∈ m, isSep ch = false) ∧ cs = m ++ r := by
  have hsplit := List.takeWhile_append_dropWhile (p := Char.isDigit) (l := cs)
  have hdig : ∀ ch ∈ cs.takeWhile Char.isDigit, ch.isDigit = true :=
    fun ch hch => List.mem_takeWhile_imp hch
  unfold parseCore at h
  dsimp only at h
  split at h
  case _ r2 heq =>
    have hsplit2 := List.takeWhile_append_dropWhile (p := Char.isDigit) (l := r2)
    have hdig2 : ∀ ch ∈ r2.takeWhile Char.isDigit, ch.isDigit = true :=
      fun ch hch => List.mem_takeWhile_imp hch
    split_ifs at h with h2 h1
    · simp only [Option.some.injEq, Prod.mk.injEq] at h
      obtain ⟨hm, hr⟩ := h
      subst hm; subst hr
      refine ⟨goodCore_of_digits _ h1 hdig, h1,
        fun ch hch => not_sep_of_digit ch (hdig ch hch), hsplit.symm⟩
    · simp only [Option.some.injEq, Prod.mk.injEq] at h
      obtain ⟨hm, hr⟩ := h
      subst hm; subst hr
      constructor
      · cases hd1 : cs.takeWhile Char.isDigit with
        | nil => exact goodCore_dot_digits _ h2 hdig2
        | cons x xs =>
          refine goodCore_of_digit_head x _ (hdig x ?_)
          rw [hd1]; simp
      refine ⟨by simp, ?_, ?_⟩
      · intro ch hch
        rcases List.mem_append.mp hch with hch1 | hch2
        · exact not_sep_of_digit ch (hdig ch hch1)
        · rcases List.mem_cons.mp hch2 with rfl | hch3
          · decide
          · exact not_sep_of_digit ch (hdig2 ch hch3)
      · calc cs = cs.takeWhile Char.isDigit ++ ('.' :: r2) := by rw [← heq, hsplit]
          _ = cs.takeWhile Char.isDigit ++
              ('.' :: (r2.takeWhile Char.isDigit ++ r2.dropWhile Char.isDigit)) := by
                rw [hsplit2]
          _ = (cs.takeWhile Char.isDigit ++ '.' :: r2.takeWhile Char.isDigit) ++
              r2.dropWhile Char.isDigit := by simp
  case _ =>
    split_ifs at h with h1
    simp only [Option.some.injEq, Prod.mk.injEq] at h
    obtain ⟨hm, hr⟩ := h
    subst hm; subst hr
    exact ⟨goodCore_of_digits _ h1 hdig, h1,
      fun ch hch => not_sep_of_digit ch (hdig ch hch), hsplit.symm⟩

/-- What `parseExpPart` guarantees: it consumes a separator-free prefix. -/
lemma parseExpPart_spec :
    ∀ (cs e r : List Char), parseExpPart cs = (e, r) →
      cs = e ++ r ∧ ∀ ch ∈ e, isSep ch = false
  | [], e, r, h => by
    simp only [parseExpPart, Prod.mk.injEq] at h
    obtain ⟨he, hr⟩ := h
    subst he; subst hr
    simp
  | [c], e, r, h => by
    simp only [parseExpPart, Prod.mk.injEq] at h
    obtain ⟨he, hr⟩ := h
    subst he; subst hr
    simp
  | c :: s :: rest2, e, r, h => by
    unfold parseExpPart at h
    dsimp only at h
    by_cases hce : c = 'e' ∨ c = 'E'
    · rw [if_pos hce] at h
      by_cases hsign : s = '+' ∨ s = '-'
      · rw [if_pos hsign] at h
        by_cases hd : rest2.takeWhile Char.isDigit = []
        · rw [if_pos hd] at h
          simp only [Prod.mk.injEq] at h
          obtain ⟨he, hr⟩ := h
          subst he; subst hr
          simp
        · rw [if_neg hd] at h
          simp only [Prod.mk.injEq] at h
          obtain ⟨he, hr⟩ := h
          subst he; subst hr
          constructor
          · simpa using (List.takeWhile_append_dropWhile
              (p := Char.isDigit) (l := rest2)).symm
          · intro ch hch
            rcases List.mem_cons.mp hch with rfl | hch2
            · rcases hce with rfl | rfl <;> decide
            · rcases List.mem_cons.mp hch2 with rfl | hch3
              · rcases hsign with rfl | rfl <;> decide
              · exact not_sep_of_digit ch (List.mem_takeWhile_imp hch3)
      · rw [if_neg hsign] at h
        by_cases hd : (s :: rest2).takeWhile Char.isDigit = []
        · rw [if_pos hd] at h
          simp only [Prod.mk.injEq] at h
          obtain ⟨he, hr⟩ := h
          subst he; subst hr
          simp
        · rw [if_neg hd] at h
          simp only [Prod.mk.injEq] at h
          obtain ⟨he, hr⟩ := h
          subst he; subst hr
          constructor
          · simpa using (List.takeWhile_append_dropWhile
              (p := Char.isDigit) (l := s :: rest2)).symm
          · intro ch hch
            rcases List.mem_cons.mp hch with rfl | hch2
            · rcases hce with rfl | rfl <;> decide
            · exact not_sep_of_digit ch (List.mem_takeWhile_imp hch2)
    · rw [if_neg hce] at h
      simp only [Prod.mk.injEq] at h
      obtain ⟨he, hr⟩ := h
      subst he; subst hr
      simp

/-- What a successful `parseNumber` guarantees. -/
lemma parseNumber_spec (cs m r : List Char) (h : parseNumber cs = some (m, r)) :
    goodTok m = true ∧ m ≠ [] ∧ (∀ ch ∈ m, isSep ch = false) ∧ cs = m ++ r := by
  unfold parseNumber at h
  split at h
  case _ rest =>
    cases hpc : parseCore rest with
    | none => rw [hpc] at h; exact absurd h (by simp)
    | some pr =>
      obtain ⟨mc, rc⟩ := pr
      rw [hpc] at h
      dsimp only at h
      rcases hpe : parseExpPart rc with ⟨e2, r2⟩
      rw [hpe] at h
      dsimp only at h
      simp only [Option.some.injEq, Prod.mk.injEq] at h
      obtain ⟨hm, hr⟩ := h
      subst hm; subst hr
      obtain ⟨hgc, hmcne, hmcsep, hmcsplit⟩ := parseCore_spec rest mc rc hpc
      obtain ⟨hesplit, hesep⟩ := parseExpPart_spec rc e2 r2 hpe
      refine ⟨?_, by simp, ?_, ?_⟩
      · rw [goodTok]
        simp [goodCore_append e2 mc hgc]
      · intro ch hch
        rcases List.mem_cons.mp hch with rfl | hch2
        · decide
        · rcases List.mem_append.mp hch2 with hch3 | hch3
          · exact hmcsep ch hch3
          · exact hesep ch hch3
      · rw [List.cons_append, List.append_assoc, ← hesplit, ← hmcsplit]
  case _ =>
    cases hpc : parseCore cs with
    | none => rw [hpc] at h; exact absurd h (by simp)
    | some pr =>
      obtain ⟨mc, rc⟩ := pr
      rw [hpc] at h
      dsimp only at h
      rcases hpe : parseExpPart rc with ⟨e2, r2⟩
      rw [hpe] at h
      dsimp only at h
      simp only [Option.some.injEq, Prod.mk.injEq] at h
      obtain ⟨hm, hr⟩ := h
      subst hm; subst hr
      obtain ⟨hgc, hmcne, hmcsep, hmcsplit⟩ := parseCore_spec cs mc rc hpc
      obtain ⟨hesplit, hesep⟩ := parseExpPart_spec rc e2 r2 hpe
      refine ⟨goodTok_append e2 mc (goodTok_of_goodCore mc hgc),
        by simp [hmcne], ?_, ?_⟩
      · intro ch hch
        rcases List.mem_append.mp hch with hch2 | hch2
        · exact hmcsep ch hch2
        · exact hesep ch hch2
      · rw [List.append_assoc, ← hesplit, ← hmcsplit]

/-- What a successful `parseBlock` guarantees: leading separators, one
separator-free `parseFloat`-friendly number, trailing separators. -/
lemma parseBlock_spec (cs m r : List Char) (h : parseBlock cs = some (m, r)) :
    ∃ w1 num tail, m = w1 ++ num ++ tail ∧ (∀ c ∈ w1, isSep c = true) ∧
      goodTok num = true ∧ num ≠ [] ∧ (∀ c ∈ num, isSep c = false) ∧
      (∀ c ∈ tail, isSep c = true) ∧ cs = m ++ r := by
  have hsplit := List.takeWhile_append_dropWhile (p := isWS) (l := cs)
  have hws1 : ∀ ch ∈ cs.takeWhile isWS, isSep ch = true :=
    fun ch hch => sep_of_ws ch (List.mem_takeWhile_imp hch)
  unfold parseBlock at h
  dsimp only at h
  cases hpn : parseNumber (cs.dropWhile isWS) with
  | none => rw [hpn] at h; exact absurd h (by simp)
  | some pr =>
    obtain ⟨num, r2⟩ := pr
    rw [hpn] at h
    dsimp only at h
    obtain ⟨hnumtok, hnumne, hnumsep, hnumsplit⟩ :=
      parseNumber_spec (cs.dropWhile isWS) num r2 hpn
    have hsplit2 := List.takeWhile_append_dropWhile (p := isWS) (l := r2)
    have hws2 : ∀ ch ∈ r2.takeWhile isWS, isSep ch = true :=
      fun ch hch => sep_of_ws ch (List.mem_takeWhile_imp hch)
    split at h
    case _ t heq =>
      have hsplit3 := List.takeWhile_append_dropWhile (p := isWS) (l := t)
      have hws3 : ∀ ch ∈ t.takeWhile isWS, isSep ch = true :=
        fun ch hch => sep_of_ws ch (List.mem_takeWhile_imp hch)
      simp only [Option.some.injEq, Prod.mk.injEq] at h
      obtain ⟨hm, hr⟩ := h
      subst hm; subst hr
      refine ⟨cs.takeWhile isWS, num,
        r2.takeWhile isWS ++ [','] ++ t.takeWhile isWS, by simp, hws1,
        hnumtok, hnumne, hnumsep, ?_, ?_⟩
      · intro c hc
        rcases List.mem_append.mp hc with hc1 | hc3
        · rcases List.mem_append.mp hc1 with hc1 | hc2
          · exact hws2 c hc1
          · rcases List.mem_singleton.mp hc2 with rfl
            decide
        · exact hws3 c hc3
      · calc cs = cs.takeWhile isWS ++ (num ++ r2) := by rw [← hnumsplit, hsplit]
          _ = cs.takeWhile isWS ++ (num ++ (r2.takeWhile isWS ++ (',' :: t))) := by
                rw [← heq, hsplit2]
          _ = cs.takeWhile isWS ++
              (num ++ (r2.takeWhile isWS ++
                (',' :: (t.takeWhile isWS ++ t.dropWhile isWS)))) := by rw [hsplit3]
          _ = cs.takeWhile isWS ++ num ++ (r2.takeWhile isWS ++ [','] ++
                t.takeWhile isWS) ++ t.dropWhile isWS := by simp
          _ = cs.takeWhile isWS ++ num ++ r2.takeWhile isWS ++ [','] ++
                t.takeWhile isWS ++ t.dropWhile isWS := by simp
    case _ =>
      have hws3 : ∀ ch ∈ (r2.dropWhile isWS).takeWhile isWS, isSep ch = true :=
        fun ch hch => sep_of_ws ch (List.mem_takeWhile_imp hch)
      have hsplit3 := List.takeWhile_append_dropWhile (p := isWS)
        (l := r2.dropWhile isWS)
      simp only [Option.some.injEq, Prod.mk.injEq] at h
      obtain ⟨hm, hr⟩ := h
      subst hm; subst hr
      refine ⟨cs.takeWhile isWS, num,
        r2.takeWhile isWS ++ [] ++ (r2.dropWhile isWS).takeWhile isWS, by simp,
        hws1, hnumtok, hnumne, hnumsep, ?_, ?_⟩
      · intro c hc
        rcases List.mem_append.mp hc with hc1 | hc3
        · rcases List.mem_append.mp hc1 with hc1 | hc2
          · exact hws2 c hc1
          · simp at hc2
        · exact hws3 c hc3
      · calc cs = cs.takeWhile isWS ++ (num ++ r2) := by rw [← hnumsplit, hsplit]
          _ = cs.takeWhile isWS ++ (num ++ (r2.takeWhile isWS ++
                ((r2.dropWhile isWS).takeWhile isWS ++
                  (r2.dropWhile isWS).dropWhile isWS))) := by rw [hsplit3, hsplit2]
          _ = cs.takeWhile isWS ++ num ++ (r2.takeWhile isWS ++ [] ++
                (r2.dropWhile isWS).takeWhile isWS) ++
                (r2.dropWhile isWS).dropWhile isWS := by simp
          _ = cs.takeWhile isWS ++ num ++ r2.takeWhile isWS ++ [] ++
                (r2.dropWhile isWS).takeWhile isWS ++
                (r2.dropWhile isWS).dropWhile isWS := by simp

/-! Composition laws of the token splitter. -/

lemma splitAux_sep_nil :
    ∀ (s x : List Char), (∀ c ∈ s, isSep c = true) →
      splitTokensAux (s ++ x) [] = splitTokensAux x []
  | [], _, _ => rfl
  | c :: s', x, h => by
    rw [List.cons_append, splitTokensAux, if_pos (h c (by simp))]
    simp only [List.isEmpty_nil, if_pos]
    exact splitAux_sep_nil s' x (fun d hd => h d (by simp [hd]))

lemma splitAux_sep_flush :
    ∀ (s x acc : List Char), (∀ c ∈ s, isSep c = true) → s ≠ [] → acc ≠ [] →
      splitTokensAux (s ++ x) acc = acc.reverse :: splitTokensAux x []
  | [], _, _, _, hs, _ => absurd rfl hs
  | c :: s', x, acc, h, _, hacc => by
    have hne : acc.isEmpty = false := by
      cases acc
      · exact absurd rfl hacc
      · rfl
    rw [List.cons_append, splitTokensAux, if_pos (h c (by simp)), hne]
    simp only [Bool.false_eq_true, if_false]
    rw [splitAux_sep_nil s' x (fun d hd => h d (by simp [hd]))]

lemma splitAux_tok :
    ∀ (n x acc : List Char), (∀ c ∈ n, isSep c = false) →
      splitTokensAux (n ++ x) acc = splitTokensAux x (n.reverse ++ acc)
  | [], x, acc, _ => by simp
  | c :: n', x, acc, h => by
    rw [List.cons_append, splitTokensAux,
      if_neg (by rw [h c (by simp)]; simp)]
    rw [splitAux_tok n' x (c :: acc) (fun d hd => h d (by simp [hd]))]
    congr 1
    simp

lemma splitAux_all_sep :
    ∀ (s acc : List Char), (∀ c ∈ s, isSep c = true) →
      splitTokensAux s acc = if acc.isEmpty then [] else [acc.reverse]
  | [], acc, _ => rfl
  | c :: s', acc, h => by
    rw [splitTokensAux, if_pos (h c (by simp))]
    have hrec := splitAux_all_sep s' [] (fun d hd => h d (by simp [hd]))
    cases acc with
    | nil => simpa using hrec
    | cons a acc' =>
      simp only [List.isEmpty_cons, Bool.false_eq_true, if_false]
      rw [hrec]
      rfl

lemma splitAux_append_sep :
    ∀ (x s acc : List Char), (∀ c ∈ s, isSep c = true) →
      splitTokensAux (x ++ s) acc = splitTokensAux x acc
  | [], s, acc, h => by
    rw [List.nil_append, splitAux_all_sep s acc h]
    rfl
  | c :: x', s, acc, h => by
    rw [List.cons_append, splitTokensAux, splitTokensAux]
    by_cases hc : isSep c
    · rw [if_pos hc, if_pos hc]
      by_cases ha : acc.isEmpty
      · rw [if_pos ha, if_pos ha, splitAux_append_sep x' s [] h]
      · rw [if_neg ha, if_neg ha, splitAux_append_sep x' s [] h]
    · rw [if_neg hc, if_neg hc, splitAux_append_sep x' s (c :: acc) h]

lemma splitTokens_jsTrim (cs : List Char) :
    splitTokens (jsTrim cs) = splitTokens cs := by
  unfold splitTokens jsTrim
  have h1 : splitTokensAux cs [] = splitTokensAux (cs.dropWhile isWS) [] := by
    conv_lhs => rw [← List.takeWhile_append_dropWhile (p := isWS) (l := cs)]
    exact splitAux_sep_nil _ _
      (fun c hc => sep_of_ws c (List.mem_takeWhile_imp hc))
  have h2 : cs.dropWhile isWS =
      ((cs.dropWhile isWS).reverse.dropWhile isWS).reverse ++
        ((cs.dropWhile isWS).reverse.takeWhile isWS).reverse := by
    conv_lhs => rw [← List.reverse_reverse (cs.dropWhile isWS),
      ← List.takeWhile_append_dropWhile (p := isWS)
        (l := (cs.dropWhile isWS).reverse)]
    rw [List.reverse_append]
  rw [h1]
  conv_rhs => rw [h2]
  rw [splitAux_append_sep _ _ []
    (fun c hc => sep_of_ws c (List.mem_takeWhile_imp (List.mem_reverse.mp hc)))]

/-- Tokens left in a flushed-out splitter state are good when the
accumulator is. -/
lemma splitAux_nil_tokens_good (acc : List Char)
    (hacc : acc = [] ∨ goodTok acc.reverse = true) :
    ∀ t ∈ splitTokensAux [] acc, goodTok t = true := by
  intro t ht
  rcases hacc with rfl | hg
  · simp [splitTokensAux] at ht
  · cases acc with
    | nil => simp [splitTokensAux] at ht
    | cons a acc' =>
      simp only [splitTokensAux, List.isEmpty_cons, Bool.false_eq_true, if_false,
        List.mem_singleton] at ht
      subst ht
      exact hg

/-- Every token of a split coordinate group (continued from a good
accumulator) satisfies the `parseFloat`-friendly head pattern: tokens always
begin at the head of some scanner-matched number. -/
lemma group_tokens_good :
    ∀ (fuel : ℕ) (cs acc : List Char),
      (acc = [] ∨ goodTok acc.reverse = true) →
      ∀ t ∈ splitTokensAux (coordsGroupAux fuel cs).1 acc, goodTok t = true
  | 0, cs, acc, hacc => by
    intro t ht
    simp only [coordsGroupAux] at ht
    exact splitAux_nil_tokens_good acc hacc t ht
  | fuel + 1, cs, acc, hacc => by
    intro t ht
    simp only [coordsGroupAux] at ht
    cases hpb : parseBlock cs with
    | none =>
      rw [hpb] at ht
      exact splitAux_nil_tokens_good acc hacc t ht
    | some pr =>
      obtain ⟨m, r⟩ := pr
      rw [hpb] at ht
      dsimp only at ht
      obtain ⟨w1, num, tail, hm, hw1, hnumtok, hnumne, hnumsep, htail, _⟩ :=
        parseBlock_spec cs m r hpb
      subst hm
      simp only [List.append_assoc] at ht
      -- ht : t ∈ splitTokensAux (w1 ++ (num ++ (tail ++ g'))) acc
      have main : ∀ acc2, (acc2 = [] ∨ goodTok acc2.reverse = true) →
          t ∈ splitTokensAux (num ++ (tail ++ (coordsGroupAux fuel r).1)) acc2 →
          goodTok t = true := by
        intro acc2 hacc2 ht2
        rw [splitAux_tok num _ acc2 hnumsep] at ht2
        have haccne : num.reverse ++ acc2 ≠ [] := by
          cases hn : num.reverse with
          | nil => exact absurd (by simpa using hn) hnumne
          | cons y ys => simp [hn]
        have haccgood : goodTok (num.reverse ++ acc2).reverse = true := by
          rw [List.reverse_append, List.reverse_reverse]
          rcases hacc2 with rfl | hg
          · simpa using hnumtok
          · exact goodTok_append num acc2.reverse hg
        cases htl : tail with
        | nil =>
          rw [htl] at ht2
          simp only [List.nil_append] at ht2
          exact group_tokens_good fuel r (num.reverse ++ acc2)
            (Or.inr haccgood) t ht2
        | cons tc ttl =>
          rw [htl] at ht2
          rw [splitAux_sep_flush (tc :: ttl) _ (num.reverse ++ acc2)
            (by rw [← htl]; exact htail) (by simp) haccne] at ht2
          rcases List.mem_cons.mp ht2 with rfl | ht3
          · rw [List.reverse_append, List.reverse_reverse] at haccgood ⊢
            exact haccgood
          · exact group_tokens_good fuel r [] (Or.inl rfl) t ht3
      cases hw : w1 with
      | nil =>
        rw [hw] at ht
        simp only [List.nil_append] at ht
        exact main acc hacc ht
      | cons wc wtl =>
        rw [hw] at ht
        rcases hacc with rfl | hg
        · rw [splitAux_sep_nil (wc :: wtl) _
            (by rw [← hw]; exact hw1)] at ht
          exact main [] (Or.inl rfl) ht
        · rw [splitAux_sep_flush (wc :: wtl) _ acc
            (by rw [← hw]; exact hw1) (by simp)
            (by intro hh; rw [hh] at hg; simp [goodTok] at hg)] at ht
          rcases List.mem_cons.mp ht with rfl | ht3
          · exact hg
          · exact main [] (Or.inl rfl) ht3

lemma mapExcept_isOk (f : α → Except ε β) :
    ∀ (l : List α), (∀ a ∈ l, exceptIsOk (f a) = true) →
      exceptIsOk (mapExcept f l) = true
  | [], _ => rfl
  | a :: l, h => by
    have ha := h a (by simp)
    cases hfa : f a with
    | error e => rw [hfa] at ha; exact absurd ha (by simp [exceptIsOk])
    | ok b =>
      have hrest := mapExcept_isOk f l (fun x hx => h x (by simp [hx]))
      cases hml : mapExcept f l with
      | error e => rw [hml] at hrest; exact absurd hrest (by simp [exceptIsOk])
      | ok bs => simp [mapExcept, hfa, hml, exceptIsOk]

lemma exceptIsOk_map (e : Except ε α) (f : α → β) :
    exceptIsOk (e.map f) = exceptIsOk e := by
  cases e <;> rfl

/-- `parseCoordinates` can never throw on a scanner-produced coordinate
group: every token has a `parseFloat`-friendly head. -/
lemma parseCoordinates_group_isOk (fuel : ℕ) (cs : List Char) :
    exceptIsOk (parseCoordinates (coordsGroupAux fuel cs).1) = true := by
  unfold parseCoordinates
  by_cases h : jsTrim (coordsGroupAux fuel cs).1 = []
  · rw [if_pos h]; rfl
  · rw [if_neg h]
    apply mapExcept_isOk
    intro tok htok
    rw [show splitTokens (jsTrim (coordsGroupAux fuel cs).1) =
        splitTokensAux (coordsGroupAux fuel cs).1 [] from
      splitTokens_jsTrim (coordsGroupAux fuel cs).1] at htok
    have hg := group_tokens_good fuel cs [] (Or.inl rfl) tok htok
    obtain ⟨q, hq⟩ := Option.isSome_iff_exists.mp (parseFloatQ_isSome tok hg)
    simp [hq, exceptIsOk]

/-- Every scanned command's coordinate text is a coordinate-group capture. -/
lemma scanAux_group_shape :
    ∀ (n : ℕ) (cs : List Char) (rc : RawCommand), rc ∈ scanAux n cs →
      ∃ fuel cs2, rc.group = (coordsGroupAux fuel cs2).1
  | 0, _, _, h => absurd h (by simp [scanAux])
  | _ + 1, [], _, h => absurd h (by simp [scanAux])
  | n + 1, c :: rest, rc, h => by
    rw [scanAux] at h
    cases hcc : commandOfChar c with
    | none =>
      rw [hcc] at h
      exact scanAux_group_shape n rest rc h
    | some pc =>
      rw [hcc] at h
      dsimp only at h
      rcases List.mem_cons.mp h with rfl | hmem
      · exact ⟨rest.length, rest, rfl⟩
      · exact scanAux_group_shape n _ rc hmem

/-- The hard half of C7: a string passing `validatePath` always parses in
full — the scanner is total, and no token it produces can fail
`parseFloat`. -/
lemma parsePath_isOk_of_valid (s : String) (hv : validatePath s = []) :
    exceptIsOk (parsePath s) = true := by
  unfold parsePath
  rw [hv]
  rw [exceptIsOk_map]
  apply mapExcept_isOk
  intro rc hrc
  obtain ⟨fuel, cs2, hg⟩ := scanAux_group_shape s.data.length s.data rc hrc
  have hok := parseCoordinates_group_isOk fuel cs2
  rw [← hg] at hok
  cases hpc : parseCoordinates rc.group with
  | error e => rw [hpc] at hok; exact absurd hok (by simp [exceptIsOk])
  | ok qs => simp [hpc, exceptIsOk]

/-- C7: `parsePath` fails (with the invalid-path error) exactly when the
input is empty/whitespace-only or contains a character outside the permitted
command-letter and numeric-token alphabet; and when it fails the result is an
error value — no partial command list is ever returned (the embedding's
`mapExcept` aborts on the first throw, as the source's exception does). -/
theorem claim7_parse_error_iff (s : String) :
    (exceptIsOk (parsePath s) = false ↔
      (jsTrim s.data = [] ∨ s.data.all validChar = false)) ∧
    (exceptIsOk (parsePath s) = false → ∃ e, parsePath s = .error e) := by
  constructor
  · constructor
    · intro h
      by_contra hc
      push_neg at hc
      obtain ⟨h1, h2⟩ := hc
      have h2' : s.data.all validChar = true := by
        cases hval : s.data.all validChar
        · exact absurd hval h2
        · rfl
      have hv : validatePath s = [] := by
        unfold validatePath
        rw [if_neg h1, if_pos h2']
        rfl
      rw [parsePath_isOk_of_valid s hv] at h
      exact absurd h (by simp)
    · intro h
      have hv : validatePath s ≠ [] := by
        unfold validatePath
        rcases h with h | h
        · rw [if_pos h]; simp
        · intro hcontra
          rw [List.append_eq_nil] at hcontra
          obtain ⟨_, h2⟩ := hcontra
          split_ifs at h2 with hcond
          · exact absurd hcond (by rw [h]; exact Bool.false_ne_true)
      unfold parsePath
      cases hval : validatePath s with
      | nil => exact absurd hval hv
      | cons e es => rfl
  · intro h
    cases hp : parsePath s with
    | error e => exact ⟨e, rfl⟩
    | ok p => rw [hp] at h; exact absurd h (by simp [exceptIsOk])

/-- Witness for C7 at a concrete invalid input (`X` is outside the
alphabet). -/
theorem claim7_parse_error_iff_witness :
    exceptIsOk (parsePath "M0,0 X9") = false ∧
      ∃ e, parsePath "M0,0 X9" = .error e :=
  ⟨(claim7_parse_error_iff "M0,0 X9").1.mpr (Or.inr (by decide)),
    (claim7_parse_error_iff "M0,0 X9").2
      ((claim7_parse_error_iff "M0,0 X9").1.mpr (Or.inr (by decide)))⟩

end PathInterp
